import Mathlib

/-!
Verification of the m1fp-go additively homomorphic encryption core.

The Go sources are embedded shallowly over natural numbers:

* big.Int values are modelled as Nat (all quantities in the scheme are
  non-negative; modular reductions are written explicitly).
* big.Float values arising in key generation are modelled exactly as
  dyadic rationals num / 2^exp together with Go's round-to-nearest-even
  behaviour at the configured precision (Dy, dyRound below).
* Go (value, error) returns are modelled by the type Ret.
* Go strings that carry byte data are modelled as List Nat of byte
  values; decimal-digit strings as List Nat of digit values (the pad
  character of the percent-zero-star formats is the zero digit).

The common-domain implementation (numeric.go, publickey.go second part,
crypto.go Add/AddMany) is embedded in namespace M1FP; the earlier
fixed-width key serialization (publickey.go MarshalBinary and
UnmarshalBinary) in namespace M1FP.Legacy.

Two helper functions called by KeyGen, computeCommonDenominator and
liftToCommonDomain, are not present in the sources and are modelled
from the spec (see their doc comments).
-/

namespace M1FP

/-- Error kinds returned by the Go functions (the Go code uses
fmt.Errorf strings; only the kind matters for the claims). -/
inductive Err where
  | precisionTooSmall
  | invalidX
  | voteOutOfRange
  | messageTooLong
  | malformedDigits
  | invalidChunk
  | nilCiphertext
  | missingDenominator
  | mismatchedDenominators
  | emptyAggregation
  | truncatedInput
  | invalidLength
  | unsupportedPrecision
  | valueNotInUnit
  deriving DecidableEq, Repr

/-- Result of a Go call returning (value, error). -/
inductive Ret (α : Type) where
  | ok : α → Ret α
  | err : Err → Ret α
  deriving DecidableEq, Repr

/-- Sequencing of fallible Go calls. -/
def Ret.bind {α β : Type} : Ret α → (α → Ret β) → Ret β
  | .ok a, f => f a
  | .err e, _ => .err e

/-- Mapping over the success value. -/
def Ret.map {α β : Type} (f : α → β) : Ret α → Ret β
  | .ok a => .ok (f a)
  | .err e => .err e

/-- Whether the call failed. -/
def Ret.isErr {α : Type} : Ret α → Bool
  | .ok _ => false
  | .err _ => true

/-- Extract the success value with a default. -/
def Ret.getOk {α : Type} (d : α) : Ret α → α
  | .ok a => a
  | .err _ => d

/-!  Positional base-B digit machinery, shared by the decimal codec
(base 10, modelling percent-d formatting and big.Int SetString) and by
the byte serialization (base 256, modelling big.Int FillBytes and
SetBytes).  Lists are most-significant first, matching the Go data. -/

/-- Value of a most-significant-first digit list in base B. -/
def baseVal (B : ℕ) : List ℕ → ℕ
  | [] => 0
  | d :: tl => d * B ^ tl.length + baseVal B tl

/-- The w low-order base-B digits of v, most significant first
(digit j of the result is v / B^(w-1-j) mod B). -/
def baseDigitsExact (B : ℕ) : ℕ → ℕ → List ℕ
  | 0, _ => []
  | w + 1, v => (v / B ^ w) % B :: baseDigitsExact B w v

/-- Fuel-driven decimal digit count (number of characters percent-d
prints for v).  Structural recursion on the fuel keeps it kernel
reducible. -/
def dcAux : ℕ → ℕ → ℕ
  | 0, _ => 1
  | f + 1, v => if v < 10 then 1 else dcAux f (v / 10) + 1

/-- Number of decimal digits of v (1 for v = 0). -/
def digitCount (v : ℕ) : ℕ := dcAux v v

/-- Go fmt percent-zero-star-d: decimal digits of v, left padded with
zeros to width w; values needing more than w digits print in full. -/
def padDec (w v : ℕ) : List ℕ := baseDigitsExact 10 (max w (digitCount v)) v

/-- Value of a decimal digit string (big.Int SetString base 10). -/
def digitsVal (ds : List ℕ) : ℕ := baseVal 10 ds

/-- asciiToDigits: each byte becomes its three-digit decimal code
(crypto.go / numeric.go). -/
def asciiToDigits (s : List ℕ) : List ℕ :=
  s.flatMap (fun b => [b / 100, (b / 10) % 10, b % 10])

/-- Decoding loop of digitsToASCII: each three-digit group is parsed
and written with WriteByte, whose byte conversion keeps the low 8 bits
(val mod 256). -/
def chunksToBytes : List ℕ → List ℕ
  | a :: b :: c :: tl => (a * 100 + b * 10 + c) % 256 :: chunksToBytes tl
  | _ => []

/-- digitsToASCII (crypto.go / numeric.go): fails when the length is
not a multiple of three, otherwise decodes each group mod 256.  (The
invalid-chunk error of the source can only fire on non-digit
characters, which the digit-list representation excludes.) -/
def digitsToASCII (d : List ℕ) : Ret (List ℕ) :=
  if d.length % 3 ≠ 0 then .err .malformedDigits
  else .ok (chunksToBytes d)

/-!  Exact model of the non-negative big.Float values used by key
generation.  Every value that occurs is a dyadic rational; Go rounds
results to the configured mantissa precision with round-to-nearest,
ties-to-even. -/

/-- A non-negative dyadic rational num / 2^exp (a big.Float value). -/
structure Dy where
  num : ℕ
  exp : ℕ
  deriving DecidableEq, Repr

/-- Round the rational A / B to the nearest integer, ties to even. -/
def rneDiv (A B : ℕ) : ℕ :=
  let q := A / B
  let r := A % B
  if 2 * r < B then q
  else if B < 2 * r then q + 1
  else if q % 2 = 0 then q else q + 1

/-- Number of bits of n (0 for n = 0), via structural fuel recursion
so that the kernel can evaluate it. -/
def bitlenAux : ℕ → ℕ → ℕ
  | 0, _ => 0
  | f + 1, n => if n = 0 then 0 else bitlenAux f (n / 2) + 1

/-- Bit length of a natural number. -/
def bitlen (n : ℕ) : ℕ := bitlenAux n n

/-- Round a dyadic value to a P-bit mantissa, ties to even (the
rounding Go applies to every big.Float operation result).  Values
whose numerator already fits in P bits are exact. -/
def dyRound (P : ℕ) (f : Dy) : Dy :=
  let b := bitlen f.num
  if b ≤ P then f
  else
    let s := b - P
    if s ≤ f.exp then ⟨rneDiv f.num (2 ^ s), f.exp - s⟩
    else ⟨rneDiv f.num (2 ^ s) * 2 ^ (s - f.exp), 0⟩

/-- Multiplication of a big.Float by an integer is exact before the
precision rounding (the caller applies dyRound). -/
def dyMulNat (a : ℕ) (f : Dy) : Dy := ⟨a * f.num, f.exp⟩

/-- Mod1 (numeric.go): fractional part.  The subtraction at the working
precision is exact for every value produced here because the fractional
part of a P-bit value has at most P significant bits. -/
def dyFrac (f : Dy) : Dy := ⟨f.num % 2 ^ f.exp, f.exp⟩

/-- Floor of a dyadic value times an integer, exactly. -/
def dyFloorMul (f : Dy) (d : ℕ) : ℕ := f.num * d / 2 ^ f.exp

/-- Whether the value is at least one. -/
def dyGeOne (f : Dy) : Bool := 2 ^ f.exp ≤ f.num

/-- Equality of big.Float values (Cmp = 0), independent of the
representation chosen for the mantissa. -/
def dyEq (f g : Dy) : Prop := f.num * 2 ^ g.exp = g.num * 2 ^ f.exp

instance (f g : Dy) : Decidable (dyEq f g) := by
  unfold dyEq; infer_instance

/-- big.Float SetPrec(P).SetString applied to the decimal literal
A / B with 0 < A < B: the value is normalized to a P-bit mantissa and
rounded to nearest, ties to even.  The exponent E is the unique
position making the rounded mantissa land in the normal range. -/
def parseFloat (P A B : ℕ) : Dy :=
  let c := bitlen B - bitlen A
  let E := if B ≤ A * 2 ^ c then P - 1 + c else P + c
  ⟨rneDiv (A * 2 ^ E) B, E⟩

/-!  Common-domain implementation (numeric.go, crypto.go Add/AddMany,
publickey.go vote functions). -/

/-- PublicKey of the common-domain implementation: integer lifts of x
and h, the common denominator D, the precision in bits, and the
decimal width of numeric plaintexts. -/
structure PublicKey where
  XInt : ℕ
  HInt : ℕ
  D : ℕ
  Prec : ℕ
  N : ℕ
  deriving DecidableEq, Repr

/-- PrivateKey: secret scalar A plus a copy of the public key. -/
structure PrivateKey where
  A : ℕ
  PK : PublicKey
  deriving DecidableEq, Repr

/-- Ciphertext (numeric.go): unexported big.Int pointers c1, c2, d
(None models a nil pointer) and the decimal digit count n. -/
structure Ciphertext where
  c1 : Option ℕ
  c2 : Option ℕ
  d : Option ℕ
  n : ℕ
  deriving DecidableEq, Repr

/-- Number of decimal digits used for vote encoding (VoteDigits). -/
def VoteDigits : ℕ := 9

/-- Modelled from the spec: computeCommonDenominator is called by
KeyGen (numeric.go line 165) but its definition is not in the sources;
section 4.B of the spec fixes computeD(P, n) = (1 shifted left P
times) times 5^n. -/
def computeCommonDenominator (P n : ℕ) : ℕ := 2 ^ P * 5 ^ n

/-- Modelled from the spec: liftToCommonDomain is called by KeyGen
(numeric.go lines 167 and 171) but its definition is not in the
sources; the spec (section 4.C step 5 and the glossary) lifts a real
f in the unit interval to the integer floor of f times D. -/
def liftToCommonDomain (f : Dy) (d : ℕ) : ℕ := dyFloorMul f d

/-- mulIntFloatMod1 (numeric.go): (a times x) mod 1 computed with
big.Float at prec bits; the product is rounded to prec bits before the
fractional part is taken. -/
def mulIntFloatMod1 (a : ℕ) (x : Dy) (prec : ℕ) : Dy :=
  dyFrac (dyRound prec (dyMulNat a x))

/-- KeyGen (numeric.go lines 143 to 179) as a function of the
precision, the decimal literal xNum / xDen standing for the x string,
and the sampled 128-bit scalar a0 (rand.Int output; a zero sample is
replaced by one exactly as in the code). -/
def KeyGen (precBits : ℕ) (xNum xDen a0 : ℕ) : Ret (PrivateKey × PublicKey) :=
  if precBits < 128 then .err .precisionTooSmall
  else
    let x := parseFloat precBits xNum xDen
    if x.num = 0 ∨ dyGeOne x then .err .invalidX
    else
      let a := if a0 = 0 then 1 else a0
      let h := mulIntFloatMod1 a x precBits
      let n := VoteDigits
      let d := computeCommonDenominator precBits n
      let xInt := liftToCommonDomain x d
      let hInt := liftToCommonDomain h d
      let pk : PublicKey := ⟨xInt, hInt, d, precBits, n⟩
      .ok (⟨a, pk⟩, pk)

/-- EncryptDeterministic (numeric.go lines 238 to 258): the message is
a byte string; n is its digit length, the message integer is scaled by
2^(Prec - n) and masked in the common domain. -/
def EncryptDeterministic (pk : PublicKey) (m : List ℕ) (r : ℕ) : Ret Ciphertext :=
  let digits := asciiToDigits m
  let n := digits.length
  if pk.Prec < n then .err .precisionTooSmall
  else
    let messageInt := digitsVal digits
    let scaleFactor := 2 ^ (pk.Prec - n)
    let M := messageInt * scaleFactor
    let c1 := r * pk.XInt % pk.D
    let rH := r * pk.HInt % pk.D
    let c2 := (M + rH) % pk.D
    .ok ⟨some c1, some c2, some pk.D, n⟩

/-- encryptDigits (publickey.go lines 125 to 164): digit-string
variant; messages shorter than nine digits are zero padded on the
left, longer ones are rejected.  The caller supplies r (the nil-r
branch draws it from the RNG). -/
def encryptDigits (pk : PublicKey) (msgDigits : List ℕ) (r : ℕ) : Ret Ciphertext :=
  let n0 := msgDigits.length
  if 9 < n0 then .err .messageTooLong
  else
    let ds := if n0 = VoteDigits then msgDigits
              else List.replicate (VoteDigits - n0) 0 ++ msgDigits
    let n := VoteDigits
    if pk.Prec < n then .err .precisionTooSmall
    else
      let messageInt := digitsVal ds
      let scaleFactor := 2 ^ (pk.Prec - n)
      let M := messageInt * scaleFactor
      let c1 := r * pk.XInt % pk.D
      let rH := r * pk.HInt % pk.D
      let c2 := (M + rH) % pk.D
      .ok ⟨some c1, some c2, some pk.D, n⟩

/-- EncryptVote (publickey.go lines 100 to 106): votes above 64 are
rejected; otherwise the vote is printed as nine zero-padded digits and
passed to encryptDigits. -/
def EncryptVote (pk : PublicKey) (vote : ℕ) (r : ℕ) : Ret Ciphertext :=
  if 64 < vote then .err .voteOutOfRange
  else encryptDigits pk (padDec VoteDigits vote) r

/-- The MPrime computation of Decrypt (numeric.go lines 273 to 279):
c2 minus (a times c1 mod d), with d added once when the subtraction
would be negative. -/
def mprime (a d c1 c2 : ℕ) : ℕ :=
  let aC1 := a * c1 % d
  if aC1 ≤ c2 then c2 - aC1 else c2 + d - aC1

/-- The rounded quotient of Decrypt (numeric.go lines 281 to 291):
divide by the scale factor and round half up on a nonzero remainder. -/
def roundQ (scale Mp : ℕ) : ℕ :=
  let q := Mp / scale
  let rem := Mp % scale
  if rem ≠ 0 ∧ scale / 2 ≤ rem then q + 1 else q

/-- Decrypt (numeric.go lines 263 to 295).  A nil c1 or c2 would crash
the Go code with a nil dereference; the model returns an error on that
unreachable branch (package constructors always set both). -/
def Decrypt (sk : PrivateKey) (ct : Ciphertext) : Ret (List ℕ) :=
  match ct.d, ct.c1, ct.c2 with
  | none, _, _ => .err .missingDenominator
  | some _, none, _ => .err .nilCiphertext
  | some _, _, none => .err .nilCiphertext
  | some d, some c1, some c2 =>
    if sk.PK.Prec < ct.n then .err .precisionTooSmall
    else
      let Mp := mprime sk.A d c1 c2
      let scaleFactor := 2 ^ (sk.PK.Prec - ct.n)
      digitsToASCII (padDec ct.n (roundQ scaleFactor Mp))

/-- DecryptDigits (publickey.go lines 169 to 200): identical
arithmetic to Decrypt, returning the zero-padded decimal string. -/
def DecryptDigits (sk : PrivateKey) (ct : Ciphertext) : Ret (List ℕ) :=
  match ct.d, ct.c1, ct.c2 with
  | none, _, _ => .err .missingDenominator
  | some _, none, _ => .err .nilCiphertext
  | some _, _, none => .err .nilCiphertext
  | some d, some c1, some c2 =>
    if sk.PK.Prec < ct.n then .err .precisionTooSmall
    else
      let Mp := mprime sk.A d c1 c2
      let scaleFactor := 2 ^ (sk.PK.Prec - ct.n)
      .ok (padDec ct.n (roundQ scaleFactor Mp))

/-- The decryption remainder MPrime mod 2^(P - n) of a ciphertext
(the value the rounding step of Decrypt inspects). -/
def decryptRem (sk : PrivateKey) (ct : Ciphertext) : ℕ :=
  mprime sk.A (ct.d.getD 0) (ct.c1.getD 0) (ct.c2.getD 0) % 2 ^ (sk.PK.Prec - ct.n)

/-- The lift discrepancy (HInt - A times XInt) mod D as a non-negative
representative; exact key material would make it zero. -/
def deltaOf (sk : PrivateKey) : ℕ :=
  (sk.PK.HInt + sk.PK.D - sk.A * sk.PK.XInt % sk.PK.D) % sk.PK.D

/-- Ciphertext.Add (crypto.go lines 233 to 253): componentwise modular
addition in the shared common domain; the prec argument is kept for
API compatibility and unused. -/
def add (_prec : ℕ) (c other : Ciphertext) : Ret Ciphertext :=
  if c.c1 = none ∨ other.c1 = none then .err .nilCiphertext
  else
    match c.d, other.d with
    | some d1, some d2 =>
      if d1 ≠ d2 then .err .mismatchedDenominators
      else
        let sumC1 := (c.c1.getD 0 + other.c1.getD 0) % d1
        let sumC2 := (c.c2.getD 0 + other.c2.getD 0) % d1
        .ok ⟨some sumC1, some sumC2, some d1, max other.n c.n⟩
    | _, _ => .err .missingDenominator

/-- The accumulation loop of AddMany. -/
def addManyLoop (prec : ℕ) : Ciphertext → List Ciphertext → Ret Ciphertext
  | acc, [] => .ok acc
  | acc, c :: rest =>
    match add prec acc c with
    | .ok acc2 => addManyLoop prec acc2 rest
    | .err e => .err e

/-- AddMany (crypto.go lines 258 to 271): empty input is rejected,
otherwise the ciphertexts are folded left to right with Add. -/
def AddMany (prec : ℕ) (cts : List Ciphertext) : Ret Ciphertext :=
  match cts with
  | [] => .err .emptyAggregation
  | c :: rest => addManyLoop prec c rest

/-- Left-to-right monadic fold of add, used to state the AddMany
contract. -/
def addFold (prec : ℕ) (c : Ciphertext) (cs : List Ciphertext) : Ret Ciphertext :=
  cs.foldl (fun acc ct => acc.bind (fun x => add prec x ct)) (.ok c)

/-- API invariant of ciphertexts: the two big.Int components are both
present (every package constructor sets them together; a missing c2
with a present c1 would crash Go with a nil dereference rather than
return an error). -/
def wfCt (c : Ciphertext) : Prop := c.c1.isSome ∧ c.c2.isSome

instance (c : Ciphertext) : Decidable (wfCt c) := by
  unfold wfCt; infer_instance

/-!  The earlier fixed-width public-key serialization (publickey.go
MarshalBinary / UnmarshalBinary, first version in the sources), whose
PublicKey carries X and H as big.Float fractions. -/

namespace Legacy

/-- PublicKey of the serialization code (publickey.go): big.Float
fields X and H in the unit interval and the precision. -/
structure PublicKey where
  X : Dy
  H : Dy
  Prec : ℕ
  deriving DecidableEq, Repr

/-- intFromFloat (publickey.go lines 65 to 73): floor of f times
2^prec, rejecting values outside the unit interval (negative values
cannot arise in the non-negative model).  The multiplication by a
power of two is exact in big.Float and Int truncates, so the result is
the exact floor. -/
def intFromFloat (f : Dy) (prec : ℕ) : Ret ℕ :=
  if dyGeOne f then .err .valueNotInUnit
  else .ok (f.num * 2 ^ prec / 2 ^ f.exp)

/-- floatFromInt (publickey.go lines 76 to 81): i / 2^prec. -/
def floatFromInt (i prec : ℕ) : Dy := ⟨i, prec⟩

/-- binary.BigEndian.PutUint16 after the uint16 cast. -/
def u16be (p : ℕ) : List ℕ := [p / 256 % 256, p % 256]

/-- big.Int FillBytes into a k-byte buffer: big-endian, left padded
with zeros (Go panics when the value needs more than k bytes; every
caller here guarantees the bound). -/
def padBytes (k v : ℕ) : List ℕ := baseDigitsExact 256 k v

/-- big.Int SetBytes: big-endian value of a byte slice. -/
def bytesVal (bs : List ℕ) : ℕ := baseVal 256 bs

/-- MarshalBinary (publickey.go lines 10 to 39): precision as a
big-endian uint16 followed by the two coordinates in k = ceil(Prec/8)
bytes each. -/
def MarshalBinary (pk : PublicKey) : Ret (List ℕ) :=
  if pk.Prec = 0 ∨ 2 ^ 16 - 1 < pk.Prec then .err .unsupportedPrecision
  else
    let k := (pk.Prec + 7) / 8
    (intFromFloat pk.X pk.Prec).bind fun xInt =>
    (intFromFloat pk.H pk.Prec).bind fun hInt =>
    .ok (u16be pk.Prec ++ padBytes k xInt ++ padBytes k hInt)

/-- UnmarshalBinary (publickey.go lines 42 to 62): reads the
precision, rejects any length other than 2 + 2k, and rebuilds X and H
as i / 2^prec. -/
def UnmarshalBinary (data : List ℕ) : Ret PublicKey :=
  if data.length < 2 then .err .truncatedInput
  else
    let prec := bytesVal (data.take 2)
    let k := (prec + 7) / 8
    if data.length ≠ 2 + 2 * k then .err .invalidLength
    else
      .ok ⟨floatFromInt (bytesVal ((data.drop 2).take k)) prec,
           floatFromInt (bytesVal (data.drop (2 + k))) prec, prec⟩

/-- Generation of the legacy key material exactly as the package tests
build it (homomorphic_test.go first version, lines 288 to 292): parse
x at prec bits and set h = Mod1 of the prec-bit product a times x. -/
def keyMaterial (prec xNum xDen a : ℕ) : PublicKey :=
  let x := parseFloat prec xNum xDen
  let h := dyFrac (dyRound prec (dyMulNat a x))
  ⟨x, h, prec⟩

end Legacy

/-!  Concrete data used by the counterexample and witness theorems. -/

/-- Decimal digits of the default public parameter X (numeric.go
line 126), as the numerator over 10 to the 79. -/
def xNumDefault : ℕ :=
  6094379124341003746007593332261876395256013542685177219126478914741789877076578

/-- Denominator of the textual default X. -/
def xDenDefault : ℕ := 10 ^ 79

/-- A possible output of the 128-bit secret-scalar sampling. -/
def aSample : ℕ := 2 ^ 127 + 987654321

/-- The key pair KeyGen(256, X) produces when the RNG returns
aSample. -/
def sampleKeys : PrivateKey × PublicKey :=
  (KeyGen 256 xNumDefault xDenDefault aSample).getOk
    ⟨⟨0, ⟨0, 0, 0, 0, 0⟩⟩, ⟨0, 0, 0, 0, 0⟩⟩

/-- Private key of the sample KeyGen run. -/
def sampleSK : PrivateKey := sampleKeys.1

/-- Public key of the sample KeyGen run. -/
def samplePK : PublicKey := sampleKeys.2

/-- A small public key whose lift discrepancy is exactly one, used by
witnesses (HInt = A times XInt plus one). -/
def witnessPK : PublicKey := ⟨12345, 3 * 12345 + 1, 2 ^ 128 * 5 ^ 9, 128, 9⟩

/-- Private key matching witnessPK (secret scalar three). -/
def witnessSK : PrivateKey := ⟨3, witnessPK⟩

/-- Nine-digit plaintext one. -/
def cxD1 : List ℕ := [0, 0, 0, 0, 0, 0, 0, 0, 1]

/-- Nine-digit plaintext two. -/
def cxD2 : List ℕ := [0, 0, 0, 0, 0, 0, 0, 0, 2]

/-- Public key for the decryption-wraparound counterexample; only the
secret scalar and the precision matter to decryption. -/
def c5PK : PublicKey := ⟨12345, 12345, 2 ^ 128 * 5 ^ 9, 128, 9⟩

/-- Private key with scalar one for the wraparound counterexample. -/
def c5SK : PrivateKey := ⟨1, c5PK⟩

/-- A ciphertext with components in the common domain whose rounded
quotient is exactly 10 to the 9. -/
def c5CT : Ciphertext :=
  ⟨some 0, some (2 ^ 128 * 5 ^ 9 - 1), some (2 ^ 128 * 5 ^ 9), 9⟩

/-- Legacy key material generated from the string 0.2 at precision
128 and the test scalar (the parsed mantissa is odd and x is below
one half, so the X coordinate has more than 128 fractional bits). -/
def legacySamplePK : Legacy.PublicKey := Legacy.keyMaterial 128 2 10 5940941723

/-- Legacy key material from the default X string at precision 256
with the test scalar; both coordinates are exact at 256 fractional
bits. -/
def legacyWitnessPK : Legacy.PublicKey :=
  Legacy.keyMaterial 256 xNumDefault xDenDefault 5940941723

/-- Well-formed ciphertexts for the Add witnesses. -/
def wCtA : Ciphertext := ⟨some 11, some 22, some 1000, 9⟩

/-- Second Add witness ciphertext. -/
def wCtB : Ciphertext := ⟨some 33, some 44, some 1000, 9⟩

/-- Third Add witness ciphertext. -/
def wCtC : Ciphertext := ⟨some 55, some 66, some 1000, 6⟩

/-- A ciphertext with a different common denominator. -/
def wCtOther : Ciphertext := ⟨some 1, some 2, some 999, 9⟩

/-!  Lemmas about the positional digit machinery. -/

theorem length_baseDigitsExact (B w v : ℕ) : (baseDigitsExact B w v).length = w := by
  induction w generalizing v with
  | zero => rfl
  | succ w ih => simp [baseDigitsExact, ih]

theorem baseVal_lt (B : ℕ) (ds : List ℕ) (h : ∀ d ∈ ds, d < B) :
    baseVal B ds < B ^ ds.length := by
  induction ds with
  | nil => simp [baseVal]
  | cons d tl ih =>
    have hd : d < B := h d (by simp)
    have htl : baseVal B tl < B ^ tl.length := ih (fun x hx => h x (by simp [hx]))
    have h1 : d * B ^ tl.length + baseVal B tl < (d + 1) * B ^ tl.length := by
      have e : (d + 1) * B ^ tl.length = d * B ^ tl.length + B ^ tl.length := by ring
      omega
    have h2 : (d + 1) * B ^ tl.length ≤ B * B ^ tl.length :=
      Nat.mul_le_mul_right _ hd
    have h3 : B * B ^ tl.length = B ^ (d :: tl).length := by
      rw [List.length_cons, pow_succ, Nat.mul_comm]
    calc d * B ^ tl.length + baseVal B tl < (d + 1) * B ^ tl.length := h1
      _ ≤ B * B ^ tl.length := h2
      _ = B ^ (d :: tl).length := h3

theorem baseDigitsExact_add_high (B : ℕ) (hB : 0 < B) (w v c : ℕ) :
    baseDigitsExact B w (v + c * B ^ w) = baseDigitsExact B w v := by
  induction w generalizing c with
  | zero => rfl
  | succ w ih =>
    have hpow : 0 < B ^ w := Nat.pos_pow_of_pos w hB
    have e1 : v + c * B ^ (w + 1) = v + c * B * B ^ w := by ring
    rw [e1]
    simp only [baseDigitsExact, List.cons.injEq]
    constructor
    · rw [Nat.add_mul_div_right _ _ hpow, Nat.add_mul_mod_self_right]
    · exact ih (c * B)

theorem baseDigitsExact_baseVal (B : ℕ) (ds : List ℕ) (hB : 0 < B)
    (h : ∀ d ∈ ds, d < B) :
    baseDigitsExact B ds.length (baseVal B ds) = ds := by
  induction ds with
  | nil => rfl
  | cons d tl ih =>
    have hd : d < B := h d (by simp)
    have htl : baseVal B tl < B ^ tl.length := baseVal_lt B tl
      (fun x hx => h x (by simp [hx]))
    show baseDigitsExact B (tl.length + 1) (baseVal B (d :: tl)) = d :: tl
    have hv : baseVal B (d :: tl) = baseVal B tl + d * B ^ tl.length := by
      simp [baseVal]; omega
    rw [hv]
    simp only [baseDigitsExact, List.cons.injEq]
    constructor
    · rw [Nat.add_mul_div_right _ _ (Nat.pos_pow_of_pos tl.length hB),
        Nat.div_eq_of_lt htl, Nat.zero_add, Nat.mod_eq_of_lt hd]
    · rw [baseDigitsExact_add_high B hB, ih (fun x hx => h x (by simp [hx]))]

theorem baseVal_baseDigitsExact (B w v : ℕ) :
    baseVal B (baseDigitsExact B w v) = v % B ^ w := by
  induction w with
  | zero => simp [baseVal, baseDigitsExact, Nat.mod_one]
  | succ w ih =>
    simp only [baseDigitsExact, baseVal, length_baseDigitsExact, ih,
      Nat.mod_pow_succ]
    ring

theorem dcAux_fuel (f : ℕ) : ∀ g v, v ≤ f → v ≤ g → dcAux f v = dcAux g v := by
  induction f with
  | zero =>
    intro g v hf _
    have hv : v = 0 := by omega
    subst hv
    cases g <;> simp [dcAux]
  | succ f ih =>
    intro g v hf hg
    cases g with
    | zero =>
      have hv : v = 0 := by omega
      subst hv
      simp [dcAux]
    | succ g =>
      by_cases h10 : v < 10
      · simp [dcAux, h10]
      · have hd1 : v / 10 ≤ f := by omega
        have hd2 : v / 10 ≤ g := by omega
        simp only [dcAux, if_neg h10]
        rw [ih g (v / 10) hd1 hd2]

theorem digitCount_lt10 (v : ℕ) (h : v < 10) : digitCount v = 1 := by
  cases v with
  | zero => rfl
  | succ k => simp [digitCount, dcAux, h]

theorem digitCount_step (v : ℕ) (h : ¬ v < 10) : digitCount v = digitCount (v / 10) + 1 := by
  cases v with
  | zero => omega
  | succ k =>
    unfold digitCount
    simp only [dcAux, if_neg h]
    rw [dcAux_fuel k ((k + 1) / 10) ((k + 1) / 10) (by omega) (le_refl _)]

theorem digitCount_le (w : ℕ) : ∀ v, 0 < w → v < 10 ^ w → digitCount v ≤ w := by
  induction w with
  | zero => omega
  | succ w ih =>
    intro v _ hv
    by_cases h10 : v < 10
    · rw [digitCount_lt10 v h10]; omega
    · have hw1 : 0 < w := by
        by_contra hw0
        have : w = 0 := by omega
        subst this
        simp at hv
        omega
      have hdiv : v / 10 < 10 ^ w := by
        rw [Nat.div_lt_iff_lt_mul (by norm_num)]
        calc v < 10 ^ (w + 1) := hv
          _ = 10 ^ w * 10 := by rw [pow_succ]
      have := ih (v / 10) hw1 hdiv
      rw [digitCount_step v h10]
      omega

theorem digitCount_pow10 (n : ℕ) : digitCount (10 ^ n) = n + 1 := by
  induction n with
  | zero => simp [digitCount, dcAux]
  | succ n ih =>
    have h10 : ¬ 10 ^ (n + 1) < 10 := by
      have : (10 : ℕ) ^ 1 ≤ 10 ^ (n + 1) := Nat.pow_le_pow_right (by norm_num) (by omega)
      simpa using this
    rw [digitCount_step _ h10, pow_succ, Nat.mul_div_cancel _ (by norm_num), ih]

theorem padDec_of_lt (w v : ℕ) (hw : 0 < w) (hv : v < 10 ^ w) :
    padDec w v = baseDigitsExact 10 w v := by
  unfold padDec
  rw [Nat.max_eq_left (digitCount_le w v hw hv)]

theorem length_padDec (w v : ℕ) : (padDec w v).length = max w (digitCount v) :=
  length_baseDigitsExact _ _ _

theorem padDec_digits (ds : List ℕ) (h0 : ds ≠ []) (h : ∀ d ∈ ds, d < 10) :
    padDec ds.length (digitsVal ds) = ds := by
  have hlen : 0 < ds.length := List.length_pos.mpr h0
  unfold digitsVal
  rw [padDec_of_lt _ _ hlen (baseVal_lt 10 ds h)]
  exact baseDigitsExact_baseVal 10 ds (by norm_num) h

/-!  Lemmas about the byte-to-digits codec. -/

theorem length_asciiToDigits (s : List ℕ) : (asciiToDigits s).length = 3 * s.length := by
  induction s with
  | nil => rfl
  | cons b tl ih =>
    simp only [asciiToDigits, List.flatMap_cons] at *
    simp [ih]
    omega

theorem asciiToDigits_lt (s : List ℕ) (h : ∀ b ∈ s, b < 256) :
    ∀ d ∈ asciiToDigits s, d < 10 := by
  induction s with
  | nil => simp [asciiToDigits]
  | cons b tl ih =>
    have hb : b < 256 := h b (by simp)
    intro d hd
    simp only [asciiToDigits, List.flatMap_cons, List.mem_append] at hd
    rcases hd with hd | hd
    · simp only [List.mem_cons, List.not_mem_nil] at hd
      rcases hd with h1 | h1 | h1 | h1 <;> first | (subst h1; omega) | exact absurd h1 (by simp)
    · exact ih (fun x hx => h x (by simp [hx])) d hd

theorem chunksToBytes_asciiToDigits (s : List ℕ) (h : ∀ b ∈ s, b < 256) :
    chunksToBytes (asciiToDigits s) = s := by
  induction s with
  | nil => rfl
  | cons b tl ih =>
    have hb : b < 256 := h b (by simp)
    simp only [asciiToDigits, List.flatMap_cons]
    show chunksToBytes (b / 100 :: (b / 10) % 10 :: b % 10 :: tl.flatMap _) = b :: tl
    simp only [chunksToBytes, List.cons.injEq]
    constructor
    · have e : b / 100 * 100 + b / 10 % 10 * 10 + b % 10 = b := by omega
      rw [e, Nat.mod_eq_of_lt hb]
    · exact ih (fun x hx => h x (by simp [hx]))

theorem digitsToASCII_asciiToDigits (s : List ℕ) (h : ∀ b ∈ s, b < 256) :
    digitsToASCII (asciiToDigits s) = .ok s := by
  unfold digitsToASCII
  rw [length_asciiToDigits]
  simp [Nat.mul_mod_right, chunksToBytes_asciiToDigits s h]

/-!  Core arithmetic lemmas for the common-domain decryption. -/

theorem mprime_eq_mod (a d c1 c2 : ℕ) (hd : 0 < d) (hc2 : c2 < d) :
    mprime a d c1 c2 = (c2 + d - a * c1 % d) % d := by
  have haC1 : a * c1 % d < d := Nat.mod_lt _ hd
  show (if a * c1 % d ≤ c2 then c2 - a * c1 % d else c2 + d - a * c1 % d) =
    (c2 + d - a * c1 % d) % d
  by_cases hle : a * c1 % d ≤ c2
  · rw [if_pos hle]
    have e : c2 + d - a * c1 % d = (c2 - a * c1 % d) + d := by omega
    rw [e, Nat.add_mod_right]
    exact (Nat.mod_eq_of_lt (by omega)).symm
  · rw [if_neg hle]
    exact (Nat.mod_eq_of_lt (by omega)).symm

theorem mprime_spec (a D X H R M c1 c2 : ℕ) (hD : 0 < D) (hc2lt : c2 < D)
    (hc1 : R * X ≡ c1 [MOD D]) (hc2 : M + R * H ≡ c2 [MOD D]) :
    mprime a D c1 c2 = (M + R * ((H + D - a * X % D) % D)) % D := by
  have hw_lt : a * X % D < D := Nat.mod_lt _ hD
  have haC1_lt : a * c1 % D < D := Nat.mod_lt _ hD
  have h1 : a * c1 ≡ a * (R * X) [MOD D] := (hc1.symm).mul_left a
  have h3 : (H + D - a * X % D) % D + a * X % D ≡ H + D [MOD D] := by
    have step : (H + D - a * X % D) % D + a * X % D ≡
        (H + D - a * X % D) + a * X % D [MOD D] :=
      (Nat.mod_modEq _ _).add_right _
    have e2 : (H + D - a * X % D) + a * X % D = H + D := by omega
    rw [e2] at step
    exact step
  have h4 : R * ((H + D - a * X % D) % D) + R * (a * X % D) ≡
      R * H + R * D [MOD D] := by
    have := h3.mul_left R
    rw [Nat.mul_add, Nat.mul_add] at this
    exact this
  have h5 : R * (a * X % D) ≡ R * (a * X) [MOD D] := (Nat.mod_modEq (a * X) D).mul_left R
  have main : (M + R * ((H + D - a * X % D) % D)) + a * c1 % D ≡ c2 + D [MOD D] := by
    have s1 : (M + R * ((H + D - a * X % D) % D)) + a * c1 % D ≡
        (M + R * ((H + D - a * X % D) % D)) + a * (R * X) [MOD D] := by
      have base : a * c1 % D ≡ a * (R * X) [MOD D] := (Nat.mod_modEq _ _).trans h1
      exact base.add_left _
    have s2 : (M + R * ((H + D - a * X % D) % D)) + a * (R * X) =
        M + (R * ((H + D - a * X % D) % D) + R * (a * X)) := by ring
    have s3 : M + (R * ((H + D - a * X % D) % D) + R * (a * X)) ≡
        M + (R * ((H + D - a * X % D) % D) + R * (a * X % D)) [MOD D] :=
      (h5.symm.add_left _).add_left M
    have s4 : M + (R * ((H + D - a * X % D) % D) + R * (a * X % D)) ≡
        M + (R * H + R * D) [MOD D] := h4.add_left M
    have s5 : M + (R * H + R * D) ≡ M + R * H [MOD D] := by
      have hRD : R * D ≡ 0 [MOD D] := Nat.modEq_zero_iff_dvd.mpr (dvd_mul_left D R)
      have h6 : (M + R * H) + R * D ≡ (M + R * H) + 0 [MOD D] := hRD.add_left _
      rw [Nat.add_zero] at h6
      have e : M + (R * H + R * D) = (M + R * H) + R * D := by ring
      rw [e]
      exact h6
    have s6 : M + R * H ≡ c2 + D [MOD D] := by
      have hD0 : D ≡ 0 [MOD D] := Nat.modEq_zero_iff_dvd.mpr dvd_rfl
      have h7 : c2 + D ≡ c2 + 0 [MOD D] := hD0.add_left c2
      rw [Nat.add_zero] at h7
      exact hc2.trans h7.symm
    exact s1.trans (s2 ▸ (s3.trans (s4.trans (s5.trans s6))))
  have cancel : (c2 + D - a * c1 % D) ≡ M + R * ((H + D - a * X % D) % D) [MOD D] := by
    apply Nat.ModEq.add_right_cancel' (a * c1 % D)
    have e : (c2 + D - a * c1 % D) + a * c1 % D = c2 + D := by omega
    rw [e]
    exact main.symm
  rw [mprime_eq_mod a D c1 c2 hD hc2lt]
  exact cancel

theorem roundQ_of_lt_half (scale m e : ℕ) (he : e < scale / 2) :
    roundQ scale (m * scale + e) = m := by
  have hs : 0 < scale := by omega
  have hlt : e < scale := by omega
  unfold roundQ
  have hdiv : (m * scale + e) / scale = m := by
    rw [show m * scale + e = e + m * scale by ring, Nat.add_mul_div_right _ _ hs,
      Nat.div_eq_of_lt hlt, Nat.zero_add]
  have hmod : (m * scale + e) % scale = e := by
    rw [show m * scale + e = e + m * scale by ring, Nat.add_mul_mod_self_right,
      Nat.mod_eq_of_lt hlt]
  simp only [hdiv, hmod]
  rw [if_neg (by omega)]

theorem EncryptDeterministic_ok (pk : PublicKey) (m : List ℕ) (r : ℕ)
    (h : 3 * m.length ≤ pk.Prec) :
    EncryptDeterministic pk m r = .ok ⟨some (r * pk.XInt % pk.D),
      some ((digitsVal (asciiToDigits m) * 2 ^ (pk.Prec - 3 * m.length) +
        r * pk.HInt % pk.D) % pk.D),
      some pk.D, 3 * m.length⟩ := by
  unfold EncryptDeterministic
  simp only [length_asciiToDigits]
  rw [if_neg (by omega)]

theorem encryptDigits_ok (pk : PublicKey) (ds : List ℕ) (r : ℕ)
    (hlen : ds.length = 9) (hp : 9 ≤ pk.Prec) :
    encryptDigits pk ds r = .ok ⟨some (r * pk.XInt % pk.D),
      some ((digitsVal ds * 2 ^ (pk.Prec - 9) + r * pk.HInt % pk.D) % pk.D),
      some pk.D, 9⟩ := by
  unfold encryptDigits VoteDigits
  rw [hlen]
  norm_num
  intro h
  exact absurd h (by omega)

theorem Decrypt_mk (sk : PrivateKey) (c1 c2 d n : ℕ) (hp : n ≤ sk.PK.Prec) :
    Decrypt sk ⟨some c1, some c2, some d, n⟩ =
      digitsToASCII (padDec n (roundQ (2 ^ (sk.PK.Prec - n)) (mprime sk.A d c1 c2))) := by
  show (if sk.PK.Prec < n then Ret.err Err.precisionTooSmall
    else digitsToASCII (padDec n (roundQ (2 ^ (sk.PK.Prec - n)) (mprime sk.A d c1 c2)))) = _
  rw [if_neg (by omega)]

theorem DecryptDigits_mk (sk : PrivateKey) (c1 c2 d n : ℕ) (hp : n ≤ sk.PK.Prec) :
    DecryptDigits sk ⟨some c1, some c2, some d, n⟩ =
      .ok (padDec n (roundQ (2 ^ (sk.PK.Prec - n)) (mprime sk.A d c1 c2))) := by
  show (if sk.PK.Prec < n then Ret.err Err.precisionTooSmall
    else .ok (padDec n (roundQ (2 ^ (sk.PK.Prec - n)) (mprime sk.A d c1 c2)))) = _
  rw [if_neg (by omega)]

theorem scaled_message_bound (P n e m rd : ℕ) (hee : n ≤ e) (hp : n ≤ P)
    (hm : m < 10 ^ n) (hrd : rd < 2 ^ (P - n)) :
    m * 2 ^ (P - n) + rd < 2 ^ P * 5 ^ e := by
  have h1 : m * 2 ^ (P - n) + rd < (m + 1) * 2 ^ (P - n) := by
    have e1 : (m + 1) * 2 ^ (P - n) = m * 2 ^ (P - n) + 2 ^ (P - n) := by ring
    omega
  have h2 : (m + 1) * 2 ^ (P - n) ≤ 10 ^ n * 2 ^ (P - n) :=
    Nat.mul_le_mul_right _ (by omega)
  have h3 : 10 ^ n * 2 ^ (P - n) = 2 ^ P * 5 ^ n := by
    have hPn : (P - n) + n = P := by omega
    calc 10 ^ n * 2 ^ (P - n) = (2 * 5) ^ n * 2 ^ (P - n) := by norm_num
      _ = 2 ^ n * 5 ^ n * 2 ^ (P - n) := by rw [mul_pow]
      _ = 2 ^ ((P - n) + n) * 5 ^ n := by rw [pow_add]; ring
      _ = 2 ^ P * 5 ^ n := by rw [hPn]
  have h4 : (2:ℕ) ^ P * 5 ^ n ≤ 2 ^ P * 5 ^ e :=
    Nat.mul_le_mul_left _ (Nat.pow_le_pow_right (by norm_num) hee)
  omega

theorem mod_c2_congruence (M rH D : ℕ) :
    M + rH ≡ (M + rH % D) % D [MOD D] := by
  have h1 : M + rH ≡ M + rH % D [MOD D] := ((Nat.mod_modEq rH D).symm).add_left M
  exact h1.trans (Nat.mod_modEq _ _).symm


/-!  Helper lemmas for the homomorphic-addition theorems. -/

theorem add_mk (p a1 b1 a2 b2 dv n1 n2 : ℕ) :
    add p ⟨some a1, some b1, some dv, n1⟩ ⟨some a2, some b2, some dv, n2⟩ =
      .ok ⟨some ((a1 + a2) % dv), some ((b1 + b2) % dv), some dv, max n2 n1⟩ := by
  unfold add
  simp

theorem pow_ten_scale (P n : ℕ) (hp : n ≤ P) :
    10 ^ n * 2 ^ (P - n) = 2 ^ P * 5 ^ n := by
  have hPn : (P - n) + n = P := by omega
  calc 10 ^ n * 2 ^ (P - n) = (2 * 5) ^ n * 2 ^ (P - n) := by norm_num
    _ = 2 ^ n * 5 ^ n * 2 ^ (P - n) := by rw [mul_pow]
    _ = 2 ^ ((P - n) + n) * 5 ^ n := by rw [pow_add]; ring
    _ = 2 ^ P * 5 ^ n := by rw [hPn]

/-- C1 (amended): the round trip Decrypt after EncryptDeterministic
recovers the message for every nonempty message of at most e/3 bytes
and every randomizer r whose product with the key lift discrepancy
deltaOf sk = (HInt - A XInt) mod D stays below half the scale factor
2^(P - n).  KeyGen builds HInt through 256-bit floating-point
rounding, so the discrepancy is nonzero in general and large r inside
[1, 2^128) break the round trip (see the counterexample). -/
theorem c1_roundtrip_amended (sk : PrivateKey) (msg : List ℕ) (r e : ℕ)
    (hD : sk.PK.D = 2 ^ sk.PK.Prec * 5 ^ e)
    (hbytes : ∀ b ∈ msg, b < 256)
    (hne : msg ≠ [])
    (hee : 3 * msg.length ≤ e)
    (hp : 3 * msg.length ≤ sk.PK.Prec)
    (hr : r * deltaOf sk < 2 ^ (sk.PK.Prec - 3 * msg.length) / 2) :
    (EncryptDeterministic sk.PK msg r).bind (Decrypt sk) = .ok msg := by
  have hD0 : 0 < sk.PK.D := by rw [hD]; positivity
  have hdig : ∀ d ∈ asciiToDigits msg, d < 10 := asciiToDigits_lt msg hbytes
  have hm : digitsVal (asciiToDigits msg) < 10 ^ (3 * msg.length) := by
    have h := baseVal_lt 10 (asciiToDigits msg) hdig
    rwa [length_asciiToDigits] at h
  rw [EncryptDeterministic_ok sk.PK msg r hp]
  simp only [Ret.bind]
  rw [Decrypt_mk sk _ _ _ _ hp]
  have hc1 : r * sk.PK.XInt ≡ r * sk.PK.XInt % sk.PK.D [MOD sk.PK.D] :=
    (Nat.mod_modEq _ _).symm
  have hc2 := mod_c2_congruence
    (digitsVal (asciiToDigits msg) * 2 ^ (sk.PK.Prec - 3 * msg.length))
    (r * sk.PK.HInt) sk.PK.D
  rw [mprime_spec sk.A sk.PK.D sk.PK.XInt sk.PK.HInt r
    (digitsVal (asciiToDigits msg) * 2 ^ (sk.PK.Prec - 3 * msg.length)) _ _
    hD0 (Nat.mod_lt _ hD0) hc1 hc2]
  have hdel : (sk.PK.HInt + sk.PK.D - sk.A * sk.PK.XInt % sk.PK.D) % sk.PK.D =
    deltaOf sk := rfl
  rw [hdel]
  have hscale_pos : 0 < 2 ^ (sk.PK.Prec - 3 * msg.length) :=
    Nat.pos_pow_of_pos _ (by norm_num)
  have hrs : r * deltaOf sk < 2 ^ (sk.PK.Prec - 3 * msg.length) := by omega
  have hsum : digitsVal (asciiToDigits msg) * 2 ^ (sk.PK.Prec - 3 * msg.length) +
      r * deltaOf sk < sk.PK.D := by
    rw [hD]
    exact scaled_message_bound sk.PK.Prec (3 * msg.length) e _ _ hee hp hm hrs
  rw [Nat.mod_eq_of_lt hsum,
    roundQ_of_lt_half (2 ^ (sk.PK.Prec - 3 * msg.length)) _ _ hr]
  have hne2 : asciiToDigits msg ≠ [] := by
    intro hcon
    have hl := length_asciiToDigits msg
    rw [hcon] at hl
    simp only [List.length_nil] at hl
    exact hne (List.length_eq_zero.mp (by omega))
  have hpad : padDec (3 * msg.length) (digitsVal (asciiToDigits msg)) =
      asciiToDigits msg := by
    have h := padDec_digits (asciiToDigits msg) hne2 hdig
    rwa [length_asciiToDigits] at h
  rw [hpad, digitsToASCII_asciiToDigits msg hbytes]

set_option maxRecDepth 8000 in
/-- C1 (counterexample): on the key pair KeyGen(256, default X)
produces for the scalar aSample, the randomizer 2^120 (inside
[1, 2^128)) does not round trip the one-byte message 1, and even
r = 5 fails on the empty message (encoded integer 0). -/
theorem c1_roundtrip_cx :
    (EncryptDeterministic samplePK [1] (2 ^ 120)).bind (Decrypt sampleSK) ≠ .ok [1] ∧
    (EncryptDeterministic samplePK [] 5).bind (Decrypt sampleSK) ≠ .ok [] := by
  decide

/-- C1 (witness): the amended round trip at a concrete key with lift
discrepancy one, message byte 65 and randomizer 1000. -/
theorem c1_roundtrip_witness :
    (EncryptDeterministic witnessSK.PK [65] 1000).bind (Decrypt witnessSK) = .ok [65] :=
  c1_roundtrip_amended witnessSK [65] 1000 9 rfl (by decide) (by decide)
    (by decide) (by decide) (by decide)

/-- C3 (amended): for a fresh single encryption the decryption
remainder MPrime mod 2^(P - n) equals (r times deltaOf sk) mod
2^(P - n), the randomizer times the key lift discrepancy; it is zero
exactly when 2^(P - n) divides that product, not always (KeyGen keys
generally have a nonzero discrepancy, see the counterexample). -/
theorem c3_remainder_amended (sk : PrivateKey) (msg : List ℕ) (r e : ℕ)
    (hD : sk.PK.D = 2 ^ sk.PK.Prec * 5 ^ e)
    (hp : 3 * msg.length ≤ sk.PK.Prec) :
    (EncryptDeterministic sk.PK msg r).map (decryptRem sk) =
      .ok (r * deltaOf sk % 2 ^ (sk.PK.Prec - 3 * msg.length)) := by
  have hD0 : 0 < sk.PK.D := by rw [hD]; positivity
  rw [EncryptDeterministic_ok sk.PK msg r hp]
  simp only [Ret.map]
  show Ret.ok (mprime sk.A sk.PK.D (r * sk.PK.XInt % sk.PK.D)
      ((digitsVal (asciiToDigits msg) * 2 ^ (sk.PK.Prec - 3 * msg.length) +
        r * sk.PK.HInt % sk.PK.D) % sk.PK.D) % 2 ^ (sk.PK.Prec - 3 * msg.length)) =
    Ret.ok (r * deltaOf sk % 2 ^ (sk.PK.Prec - 3 * msg.length))
  have hc1 : r * sk.PK.XInt ≡ r * sk.PK.XInt % sk.PK.D [MOD sk.PK.D] :=
    (Nat.mod_modEq _ _).symm
  have hc2 := mod_c2_congruence
    (digitsVal (asciiToDigits msg) * 2 ^ (sk.PK.Prec - 3 * msg.length))
    (r * sk.PK.HInt) sk.PK.D
  rw [mprime_spec sk.A sk.PK.D sk.PK.XInt sk.PK.HInt r
    (digitsVal (asciiToDigits msg) * 2 ^ (sk.PK.Prec - 3 * msg.length)) _ _
    hD0 (Nat.mod_lt _ hD0) hc1 hc2]
  have hdel : (sk.PK.HInt + sk.PK.D - sk.A * sk.PK.XInt % sk.PK.D) % sk.PK.D =
    deltaOf sk := rfl
  rw [hdel]
  have hdvd : 2 ^ (sk.PK.Prec - 3 * msg.length) ∣ sk.PK.D := by
    rw [hD]
    exact Dvd.dvd.mul_right (pow_dvd_pow 2 (by omega)) _
  rw [Nat.mod_mod_of_dvd _ hdvd]
  rw [show digitsVal (asciiToDigits msg) * 2 ^ (sk.PK.Prec - 3 * msg.length) +
      r * deltaOf sk = r * deltaOf sk +
      digitsVal (asciiToDigits msg) * 2 ^ (sk.PK.Prec - 3 * msg.length) by ring]
  rw [Nat.add_mul_mod_self_right]

set_option maxRecDepth 8000 in
/-- C3 (counterexample): a fresh single encryption under the sample
KeyGen key with randomizer one has a nonzero decryption remainder. -/
theorem c3_remainder_cx :
    (EncryptDeterministic samplePK [1] 1).map (decryptRem sampleSK) =
      .ok 14474011154664524427946373126085835501596982073912253873655721232361020111242 ∧
    (14474011154664524427946373126085835501596982073912253873655721232361020111242 : ℕ) ≠ 0 := by
  decide

/-- C3 (witness): the remainder formula at the witness key (the
remainder is 1000, the randomizer times the unit discrepancy). -/
theorem c3_remainder_witness :
    (EncryptDeterministic witnessSK.PK [65] 1000).map (decryptRem witnessSK) =
      .ok (1000 * deltaOf witnessSK % 2 ^ (witnessSK.PK.Prec - 3 * ([65] : List ℕ).length)) :=
  c3_remainder_amended witnessSK [65] 1000 9 rfl (by decide)



/-- C5 (amended): the decryption core returns the rounded quotient q
itself, without reducing it modulo 10^n; rounding up from 10^n - 1
therefore yields 10^n, which prints as an (n+1)-digit string rather
than wrapping to zero (second conjunct). -/
theorem c5_unreduced_quotient (sk : PrivateKey) (c1v c2v dv n : ℕ)
    (hp : n ≤ sk.PK.Prec) :
    DecryptDigits sk ⟨some c1v, some c2v, some dv, n⟩ =
      .ok (padDec n (roundQ (2 ^ (sk.PK.Prec - n)) (mprime sk.A dv c1v c2v))) ∧
    (padDec n (10 ^ n)).length = n + 1 := by
  constructor
  · exact DecryptDigits_mk sk c1v c2v dv n hp
  · rw [length_padDec, digitCount_pow10]
    omega

set_option maxRecDepth 2000 in
/-- C5 (counterexample): a ciphertext with components in the common
domain (c1 = 0, c2 = D - 1 under the scalar-one key) rounds up from
10^9 - 1; the code returns the ten-digit string for 10^9, not the
reduced value zero predicted by the claim. -/
theorem c5_unreduced_quotient_cx :
    DecryptDigits c5SK c5CT = .ok [1, 0, 0, 0, 0, 0, 0, 0, 0, 0] ∧
    DecryptDigits c5SK c5CT ≠ .ok (padDec 9 (10 ^ 9 % 10 ^ 9)) := by
  decide

/-- C5 (witness): the amended statement at the wraparound key and a
nine-digit width. -/
theorem c5_unreduced_quotient_witness :
    DecryptDigits c5SK ⟨some 0, some (2 ^ 128 * 5 ^ 9 - 1), some (2 ^ 128 * 5 ^ 9), 9⟩ =
      .ok (padDec 9 (roundQ (2 ^ (c5SK.PK.Prec - 9))
        (mprime c5SK.A (2 ^ 128 * 5 ^ 9) 0 (2 ^ 128 * 5 ^ 9 - 1)))) ∧
    (padDec 9 (10 ^ 9)).length = 9 + 1 :=
  c5_unreduced_quotient c5SK 0 (2 ^ 128 * 5 ^ 9 - 1) (2 ^ 128 * 5 ^ 9) 9 (by decide)


/-- C2 (amended): adding two nine-digit encryptions under the same
public key and decrypting yields (m1 + m2) mod 10^9 whenever the
combined randomizer mass (r1 + r2) times the key lift discrepancy
stays below half the scale factor; with KeyGen keys the discrepancy is
nonzero in general, so large randomizers inside [1, 2^128) break the
sum (see the counterexample). -/
theorem c2_homomorphic_sum_amended (sk : PrivateKey) (d1 d2 : List ℕ) (r1 r2 p : ℕ)
    (hl1 : d1.length = 9) (hl2 : d2.length = 9)
    (hD : sk.PK.D = 2 ^ sk.PK.Prec * 5 ^ 9)
    (hp9 : 9 ≤ sk.PK.Prec)
    (hr : (r1 + r2) * deltaOf sk < 2 ^ (sk.PK.Prec - 9) / 2) :
    ((encryptDigits sk.PK d1 r1).bind fun ct1 =>
      (encryptDigits sk.PK d2 r2).bind fun ct2 =>
      (add p ct1 ct2).bind (DecryptDigits sk)) =
    .ok (padDec 9 ((digitsVal d1 + digitsVal d2) % 10 ^ 9)) := by
  have hD0 : 0 < sk.PK.D := by rw [hD]; positivity
  rw [encryptDigits_ok sk.PK d1 r1 hl1 hp9, encryptDigits_ok sk.PK d2 r2 hl2 hp9]
  simp only [Ret.bind]
  rw [add_mk]
  simp only [Ret.bind, Nat.max_self]
  rw [DecryptDigits_mk sk _ _ _ _ hp9]
  have hc1 : (r1 + r2) * sk.PK.XInt ≡
      (r1 * sk.PK.XInt % sk.PK.D + r2 * sk.PK.XInt % sk.PK.D) % sk.PK.D [MOD sk.PK.D] := by
    have h1 : r1 * sk.PK.XInt + r2 * sk.PK.XInt ≡
        r1 * sk.PK.XInt % sk.PK.D + r2 * sk.PK.XInt % sk.PK.D [MOD sk.PK.D] :=
      ((Nat.mod_modEq _ _).symm).add ((Nat.mod_modEq _ _).symm)
    have e : (r1 + r2) * sk.PK.XInt = r1 * sk.PK.XInt + r2 * sk.PK.XInt := by ring
    rw [e]
    exact h1.trans (Nat.mod_modEq _ _).symm
  have hc2 : (digitsVal d1 + digitsVal d2) * 2 ^ (sk.PK.Prec - 9) +
      (r1 + r2) * sk.PK.HInt ≡
      ((digitsVal d1 * 2 ^ (sk.PK.Prec - 9) + r1 * sk.PK.HInt % sk.PK.D) % sk.PK.D +
       (digitsVal d2 * 2 ^ (sk.PK.Prec - 9) + r2 * sk.PK.HInt % sk.PK.D) % sk.PK.D) % sk.PK.D
      [MOD sk.PK.D] := by
    have h1 := mod_c2_congruence (digitsVal d1 * 2 ^ (sk.PK.Prec - 9))
      (r1 * sk.PK.HInt) sk.PK.D
    have h2 := mod_c2_congruence (digitsVal d2 * 2 ^ (sk.PK.Prec - 9))
      (r2 * sk.PK.HInt) sk.PK.D
    have h3 := h1.add h2
    have e : (digitsVal d1 + digitsVal d2) * 2 ^ (sk.PK.Prec - 9) +
        (r1 + r2) * sk.PK.HInt =
        (digitsVal d1 * 2 ^ (sk.PK.Prec - 9) + r1 * sk.PK.HInt) +
        (digitsVal d2 * 2 ^ (sk.PK.Prec - 9) + r2 * sk.PK.HInt) := by ring
    rw [e]
    exact h3.trans (Nat.mod_modEq _ _).symm
  rw [mprime_spec sk.A sk.PK.D sk.PK.XInt sk.PK.HInt (r1 + r2)
    ((digitsVal d1 + digitsVal d2) * 2 ^ (sk.PK.Prec - 9)) _ _
    hD0 (Nat.mod_lt _ hD0) hc1 hc2]
  have hdel : (sk.PK.HInt + sk.PK.D - sk.A * sk.PK.XInt % sk.PK.D) % sk.PK.D =
    deltaOf sk := rfl
  rw [hdel]
  have hD10 : sk.PK.D = 10 ^ 9 * 2 ^ (sk.PK.Prec - 9) := by
    rw [hD, ← pow_ten_scale sk.PK.Prec 9 hp9]
  have hms : (digitsVal d1 + digitsVal d2) * 2 ^ (sk.PK.Prec - 9) ≡
      ((digitsVal d1 + digitsVal d2) % 10 ^ 9) * 2 ^ (sk.PK.Prec - 9)
      [MOD sk.PK.D] := by
    show _ % sk.PK.D = _ % sk.PK.D
    rw [hD10, Nat.mul_mod_mul_right, Nat.mul_mod_mul_right, Nat.mod_mod_of_dvd _ dvd_rfl]
  have hcong : ((digitsVal d1 + digitsVal d2) * 2 ^ (sk.PK.Prec - 9) +
      (r1 + r2) * deltaOf sk) % sk.PK.D =
      (((digitsVal d1 + digitsVal d2) % 10 ^ 9) * 2 ^ (sk.PK.Prec - 9) +
      (r1 + r2) * deltaOf sk) % sk.PK.D :=
    hms.add_right _
  rw [hcong]
  have hscale_pos : 0 < 2 ^ (sk.PK.Prec - 9) := Nat.pos_pow_of_pos _ (by norm_num)
  have hrs : (r1 + r2) * deltaOf sk < 2 ^ (sk.PK.Prec - 9) := by omega
  have hmlt : (digitsVal d1 + digitsVal d2) % 10 ^ 9 < 10 ^ 9 :=
    Nat.mod_lt _ (by norm_num)
  have hsum : ((digitsVal d1 + digitsVal d2) % 10 ^ 9) * 2 ^ (sk.PK.Prec - 9) +
      (r1 + r2) * deltaOf sk < sk.PK.D := by
    rw [hD]
    exact scaled_message_bound sk.PK.Prec 9 9 _ _ (le_refl 9) hp9 hmlt hrs
  rw [Nat.mod_eq_of_lt hsum,
    roundQ_of_lt_half (2 ^ (sk.PK.Prec - 9)) _ _ hr]


set_option maxRecDepth 8000 in
/-- C2 (counterexample): under the sample KeyGen key pair, adding
encryptions of one and two with randomizers 2^119 each (both inside
[1, 2^128)) decrypts to 999100867, not to (1 + 2) mod 10^9 = 3. -/
theorem c2_homomorphic_sum_cx :
    ((encryptDigits samplePK cxD1 (2 ^ 119)).bind fun ct1 =>
      (encryptDigits samplePK cxD2 (2 ^ 119)).bind fun ct2 =>
      (add samplePK.Prec ct1 ct2).bind (DecryptDigits sampleSK)) =
      .ok [9, 9, 9, 1, 0, 0, 8, 6, 7] ∧
    ((encryptDigits samplePK cxD1 (2 ^ 119)).bind fun ct1 =>
      (encryptDigits samplePK cxD2 (2 ^ 119)).bind fun ct2 =>
      (add samplePK.Prec ct1 ct2).bind (DecryptDigits sampleSK)) ≠
      .ok (padDec 9 ((digitsVal cxD1 + digitsVal cxD2) % 10 ^ 9)) := by
  decide

/-- C2 (witness): the amended homomorphic sum at the unit-discrepancy
witness key with randomizers 200 and 300. -/
theorem c2_homomorphic_sum_witness :
    ((encryptDigits witnessSK.PK cxD1 200).bind fun ct1 =>
      (encryptDigits witnessSK.PK cxD2 300).bind fun ct2 =>
      (add witnessSK.PK.Prec ct1 ct2).bind (DecryptDigits witnessSK)) =
    .ok (padDec 9 ((digitsVal cxD1 + digitsVal cxD2) % 10 ^ 9)) :=
  c2_homomorphic_sum_amended witnessSK cxD1 cxD2 200 300 witnessSK.PK.Prec
    (by decide) (by decide) rfl (by decide) (by decide)


/-- C4: homomorphic addition is commutative bit-exactly on every pair
of ciphertexts, and associative component for component on well-formed
ciphertexts sharing the same common denominator. -/
theorem c4_add_comm_assoc :
    (∀ p a b, add p a b = add p b a) ∧
    (∀ p a b c Dv, a.d = some Dv → b.d = some Dv → c.d = some Dv →
      wfCt a → wfCt b → wfCt c →
      (add p a b).bind (fun x => add p x c) =
      (add p b c).bind (fun y => add p a y)) := by
  constructor
  · intro p a b
    cases a with
    | mk ac1 ac2 ad an =>
      cases b with
      | mk bc1 bc2 bd bn =>
        cases ac1 <;> cases bc1 <;> cases ad <;> cases bd <;>
          simp [add, Nat.add_comm, Nat.max_comm] <;>
          (try (rename_i d1 d2; by_cases hdd : d1 = d2)) <;>
          simp_all [Nat.add_comm, Nat.max_comm] <;>
          rw [if_neg (fun h => hdd h.symm)]
  · intro p a b c Dv hda hdb hdc hwa hwb hwc
    obtain ⟨a1, ha1⟩ := Option.isSome_iff_exists.mp hwa.1
    obtain ⟨a2, ha2⟩ := Option.isSome_iff_exists.mp hwa.2
    obtain ⟨b1, hb1⟩ := Option.isSome_iff_exists.mp hwb.1
    obtain ⟨b2, hb2⟩ := Option.isSome_iff_exists.mp hwb.2
    obtain ⟨c1, hc1⟩ := Option.isSome_iff_exists.mp hwc.1
    obtain ⟨c2, hc2⟩ := Option.isSome_iff_exists.mp hwc.2
    cases a with
    | mk ac1 ac2 ad an =>
      cases b with
      | mk bc1 bc2 bd bn =>
        cases c with
        | mk cc1 cc2 cd cn =>
          simp only at ha1 ha2 hb1 hb2 hc1 hc2 hda hdb hdc
          subst ha1 ha2 hb1 hb2 hc1 hc2 hda hdb hdc
          rw [add_mk, add_mk]
          simp only [Ret.bind]
          rw [add_mk, add_mk]
          congr 2
          · rw [Nat.mod_add_mod, Nat.add_mod_mod, Nat.add_assoc]
          · rw [Nat.mod_add_mod, Nat.add_mod_mod, Nat.add_assoc]
          · rw [Nat.max_assoc]

/-- C4 (witness): commutativity and associativity at three concrete
ciphertexts sharing the denominator 1000. -/
theorem c4_add_comm_assoc_witness :
    add 7 wCtA wCtB = add 7 wCtB wCtA ∧
    (add 7 wCtA wCtB).bind (fun x => add 7 x wCtC) =
      (add 7 wCtB wCtC).bind (fun y => add 7 wCtA y) :=
  ⟨c4_add_comm_assoc.1 7 wCtA wCtB,
   c4_add_comm_assoc.2 7 wCtA wCtB wCtC 1000 rfl rfl rfl
     (by decide) (by decide) (by decide)⟩


theorem foldl_err (p : ℕ) (e : Err) (cs : List Ciphertext) :
    cs.foldl (fun (acc : Ret Ciphertext) ct => acc.bind (fun x => add p x ct))
      (.err e) = .err e := by
  induction cs with
  | nil => rfl
  | cons c rest ih => simpa [Ret.bind] using ih

theorem addManyLoop_eq_addFold (p : ℕ) (c : Ciphertext) (cs : List Ciphertext) :
    addManyLoop p c cs = addFold p c cs := by
  induction cs generalizing c with
  | nil => rfl
  | cons c2 rest ih =>
    unfold addManyLoop addFold
    cases h : add p c c2 with
    | ok acc2 =>
      simp only [List.foldl_cons, Ret.bind, h]
      exact ih acc2
    | err e =>
      simp only [List.foldl_cons, Ret.bind, h]
      exact (foldl_err p e rest).symm

/-- C8 (amended): every byte encodes to exactly its three zero-padded
decimal digits; decoding inverts encoding on byte strings; decoding
fails exactly when the digit-string length is not divisible by three.
Three-digit groups of 256 or more are NOT rejected: the byte cast in
the decoder keeps their value mod 256 (see the counterexample). -/
theorem c8_codec_amended :
    (∀ b : ℕ, b < 256 → asciiToDigits [b] = padDec 3 b) ∧
    (∀ s : List ℕ, (asciiToDigits s).length = 3 * s.length) ∧
    (∀ s : List ℕ, (∀ b ∈ s, b < 256) → digitsToASCII (asciiToDigits s) = .ok s) ∧
    (∀ ds : List ℕ, (digitsToASCII ds).isErr = true ↔ ds.length % 3 ≠ 0) := by
  refine ⟨?_, length_asciiToDigits, digitsToASCII_asciiToDigits, ?_⟩
  · intro b hb
    have hb3 : b < 10 ^ 3 := by omega
    rw [padDec_of_lt 3 b (by norm_num) hb3]
    show [b / 100, b / 10 % 10, b % 10] = [b / 10 ^ 2 % 10, b / 10 ^ 1 % 10, b / 10 ^ 0 % 10]
    norm_num
    omega
  · intro ds
    unfold digitsToASCII
    by_cases h : ds.length % 3 = 0 <;> simp [h, Ret.isErr]

/-- C8 (counterexample): the three-digit group 999 is at least 256,
yet decoding succeeds and returns the byte 231 = 999 mod 256 instead
of a malformed-plaintext error. -/
theorem c8_codec_cx :
    digitsToASCII [9, 9, 9] = .ok [231] ∧
    (digitsToASCII [9, 9, 9]).isErr = false := by decide

/-- C8 (witness): the codec statements at the byte string 72, 105 and
a length-four digit string. -/
theorem c8_codec_witness :
    asciiToDigits [65] = padDec 3 65 ∧
    (asciiToDigits [72, 105]).length = 3 * 2 ∧
    digitsToASCII (asciiToDigits [72, 105]) = .ok [72, 105] ∧
    ((digitsToASCII [1, 2, 3, 4]).isErr = true ↔ ([1, 2, 3, 4] : List ℕ).length % 3 ≠ 0) :=
  ⟨c8_codec_amended.1 65 (by decide), c8_codec_amended.2.1 [72, 105],
   c8_codec_amended.2.2.1 [72, 105] (by decide), c8_codec_amended.2.2.2 [1, 2, 3, 4]⟩

/-- C9: Add fails exactly when a component or a denominator is missing
or the denominators differ (for ciphertexts satisfying the package
invariant that c1 and c2 are set together), with no other failure
path; AddMany rejects the empty sequence with the empty-aggregation
error and otherwise folds Add left to right over the sequence. -/
theorem c9_add_error_paths :
    (∀ p a b, (a.c1.isSome ↔ a.c2.isSome) → (b.c1.isSome ↔ b.c2.isSome) →
      ((add p a b).isErr = true ↔
        (a.c1 = none ∨ b.c1 = none ∨ a.d = none ∨ b.d = none ∨ a.d ≠ b.d))) ∧
    (∀ p, AddMany p [] = .err .emptyAggregation) ∧
    (∀ p c cs, AddMany p (c :: cs) = addFold p c cs) := by
  refine ⟨?_, fun _ => rfl, fun p c cs => addManyLoop_eq_addFold p c cs⟩
  intro p a b hwa hwb
  cases a with
  | mk ac1 ac2 ad an =>
    cases b with
    | mk bc1 bc2 bd bn =>
      cases ac1 <;> cases bc1 <;> cases ad <;> cases bd <;>
        simp [add, Ret.isErr] <;>
        (try (rename_i d1 d2; by_cases hdd : d1 = d2)) <;>
        simp_all [Ret.isErr]

/-- C9 (witness): the failure characterization at a mismatched pair of
denominators, the empty-aggregation error, and the fold equation on a
three-element sequence. -/
theorem c9_add_error_paths_witness :
    ((add 3 wCtA wCtOther).isErr = true ↔
      (wCtA.c1 = none ∨ wCtOther.c1 = none ∨ wCtA.d = none ∨ wCtOther.d = none ∨
        wCtA.d ≠ wCtOther.d)) ∧
    AddMany 5 [] = .err .emptyAggregation ∧
    AddMany 5 [wCtA, wCtB, wCtC] = addFold 5 wCtA [wCtB, wCtC] :=
  ⟨c9_add_error_paths.1 3 wCtA wCtOther (by decide) (by decide),
   c9_add_error_paths.2.1 5, c9_add_error_paths.2.2 5 wCtA [wCtB, wCtC]⟩


/-- C10: the vote path always produces nine-digit ciphertexts:
EncryptVote rejects votes above 64, encryptDigits rejects digit
strings longer than nine with the message-too-long error and zero
pads shorter ones, and every ciphertext either function returns has
n = 9. -/
theorem c10_vote_nine_digits :
    (∀ pk v r, 64 < v → EncryptVote pk v r = .err .voteOutOfRange) ∧
    (∀ pk ds r, 9 < ds.length → encryptDigits pk ds r = .err .messageTooLong) ∧
    (∀ pk ds r ct, encryptDigits pk ds r = .ok ct → ct.n = 9) ∧
    (∀ pk v r ct, EncryptVote pk v r = .ok ct → ct.n = 9) := by
  have h2 : ∀ pk ds r, 9 < ds.length →
      encryptDigits pk ds r = .err .messageTooLong := by
    intro pk ds r h
    unfold encryptDigits
    rw [if_pos h]
  have h3 : ∀ pk ds r ct, encryptDigits pk ds r = .ok ct → ct.n = 9 := by
    intro pk ds r ct h
    unfold encryptDigits VoteDigits at h
    by_cases h9 : 9 < ds.length
    · rw [if_pos h9] at h
      exact absurd h (by simp)
    · rw [if_neg h9] at h
      by_cases hp : pk.Prec < 9
      · rw [if_pos hp] at h
        exact absurd h (by simp)
      · rw [if_neg hp] at h
        have := (Ret.ok.injEq _ _).mp h
        rw [← this]
  refine ⟨?_, h2, h3, ?_⟩
  · intro pk v r h
    unfold EncryptVote
    rw [if_pos h]
  · intro pk v r ct h
    unfold EncryptVote at h
    by_cases hv : 64 < v
    · rw [if_pos hv] at h
      exact absurd h (by simp)
    · rw [if_neg hv] at h
      exact h3 pk (padDec VoteDigits v) r ct h

/-- C10 (witness): the vote bound, the length bound, and the
nine-digit shape at concrete inputs. -/
theorem c10_vote_nine_digits_witness :
    EncryptVote witnessPK 65 7 = .err .voteOutOfRange ∧
    encryptDigits witnessPK [1, 2, 3, 4, 5, 6, 7, 8, 9, 0] 7 = .err .messageTooLong ∧
    (⟨some 86415, some (42 * 2 ^ 119 + 259252), some (2 ^ 128 * 5 ^ 9), 9⟩ : Ciphertext).n = 9 ∧
    (⟨some 86415, some (42 * 2 ^ 119 + 259252), some (2 ^ 128 * 5 ^ 9), 9⟩ : Ciphertext).n = 9 :=
  ⟨c10_vote_nine_digits.1 witnessPK 65 7 (by decide),
   c10_vote_nine_digits.2.1 witnessPK [1, 2, 3, 4, 5, 6, 7, 8, 9, 0] 7 (by decide),
   c10_vote_nine_digits.2.2.1 witnessPK [4, 2] 7 _ (by decide),
   c10_vote_nine_digits.2.2.2 witnessPK 42 7 _ (by decide)⟩


/-!  Helper lemmas for the legacy key serialization. -/

theorem length_padBytes (k v : ℕ) : (Legacy.padBytes k v).length = k :=
  length_baseDigitsExact _ _ _

theorem bytesVal_padBytes (k v : ℕ) (h : v < 256 ^ k) :
    Legacy.bytesVal (Legacy.padBytes k v) = v := by
  unfold Legacy.bytesVal Legacy.padBytes
  rw [baseVal_baseDigitsExact, Nat.mod_eq_of_lt h]

theorem bytesVal_u16be (p : ℕ) (h : p < 65536) :
    Legacy.bytesVal (Legacy.u16be p) = p := by
  show p / 256 % 256 * 256 ^ [p % 256].length + (p % 256 * 256 ^ ([] : List ℕ).length +
    baseVal 256 []) = p
  simp [baseVal]
  omega

theorem pow2_le_pow256 (P : ℕ) : 2 ^ P ≤ 256 ^ ((P + 7) / 8) := by
  have h : (256 : ℕ) ^ ((P + 7) / 8) = 2 ^ (8 * ((P + 7) / 8)) := by
    rw [show (256 : ℕ) = 2 ^ 8 by norm_num, ← pow_mul]
  rw [h]
  exact Nat.pow_le_pow_right (by norm_num) (by omega)

theorem intFromFloat_exact (f : Dy) (prec : ℕ) (h1 : f.num < 2 ^ f.exp)
    (h2 : f.exp ≤ prec) :
    Legacy.intFromFloat f prec = .ok (f.num * 2 ^ (prec - f.exp)) := by
  unfold Legacy.intFromFloat
  rw [if_neg (by simp [dyGeOne]; omega)]
  congr 1
  have e : (2 : ℕ) ^ prec = 2 ^ (prec - f.exp) * 2 ^ f.exp := by
    rw [← pow_add]
    congr 1
    omega
  rw [e, ← Nat.mul_assoc, Nat.mul_div_cancel _ (Nat.pos_pow_of_pos _ (by norm_num))]

theorem marshal_layout_aux (pk : Legacy.PublicKey) (h0 : pk.Prec ≠ 0)
    (h16 : pk.Prec ≤ 65535)
    (hx1 : pk.X.num < 2 ^ pk.X.exp) (hx2 : pk.X.exp ≤ pk.Prec)
    (hh1 : pk.H.num < 2 ^ pk.H.exp) (hh2 : pk.H.exp ≤ pk.Prec) :
    Legacy.MarshalBinary pk = .ok (Legacy.u16be pk.Prec ++
      Legacy.padBytes ((pk.Prec + 7) / 8) (pk.X.num * 2 ^ (pk.Prec - pk.X.exp)) ++
      Legacy.padBytes ((pk.Prec + 7) / 8) (pk.H.num * 2 ^ (pk.Prec - pk.H.exp))) := by
  unfold Legacy.MarshalBinary
  rw [if_neg (by omega)]
  rw [intFromFloat_exact pk.X pk.Prec hx1 hx2,
    intFromFloat_exact pk.H pk.Prec hh1 hh2]
  rfl

theorem scaled_lt_pow256 (num ex prec : ℕ) (h1 : num < 2 ^ ex) (h2 : ex ≤ prec) :
    num * 2 ^ (prec - ex) < 256 ^ ((prec + 7) / 8) := by
  have ha : num * 2 ^ (prec - ex) < 2 ^ ex * 2 ^ (prec - ex) :=
    mul_lt_mul_of_pos_right h1 (pow_pos (by norm_num) _)
  have hb : (2 : ℕ) ^ ex * 2 ^ (prec - ex) = 2 ^ prec := by
    rw [← pow_add]
    congr 1
    omega
  have hc := pow2_le_pow256 prec
  omega

theorem unmarshal_marshal_aux (P k xi hi : ℕ) (hP2 : P < 65536)
    (hxk : xi < 256 ^ k) (hhk : hi < 256 ^ k) (hkP : k = (P + 7) / 8) :
    Legacy.UnmarshalBinary
      (Legacy.u16be P ++ Legacy.padBytes k xi ++ Legacy.padBytes k hi) =
      .ok ⟨⟨xi, P⟩, ⟨hi, P⟩, P⟩ := by
  have hu2 : (Legacy.u16be P).length = 2 := rfl
  have hlen : (Legacy.u16be P ++ Legacy.padBytes k xi ++ Legacy.padBytes k hi).length =
      2 + 2 * k := by
    simp [List.length_append, hu2, length_padBytes]
    omega
  have htake2 : (Legacy.u16be P ++ Legacy.padBytes k xi ++ Legacy.padBytes k hi).take 2 =
      Legacy.u16be P := by
    rw [List.append_assoc]
    exact List.take_left' hu2
  have hdrop2 : (Legacy.u16be P ++ Legacy.padBytes k xi ++ Legacy.padBytes k hi).drop 2 =
      Legacy.padBytes k xi ++ Legacy.padBytes k hi := by
    rw [List.append_assoc]
    exact List.drop_left' hu2
  have htakek : (Legacy.padBytes k xi ++ Legacy.padBytes k hi).take k =
      Legacy.padBytes k xi := List.take_left' (length_padBytes k xi)
  have hdropk : (Legacy.u16be P ++ Legacy.padBytes k xi ++ Legacy.padBytes k hi).drop (2 + k) =
      Legacy.padBytes k hi := by
    apply List.drop_left'
    simp [List.length_append, hu2, length_padBytes]
  unfold Legacy.UnmarshalBinary
  rw [if_neg (by omega)]
  simp only [htake2, bytesVal_u16be P hP2, ← hkP, hdrop2, htakek, hdropk]
  rw [if_neg (by rw [hlen]; omega)]
  rw [bytesVal_padBytes k xi hxk, bytesVal_padBytes k hi hhk]
  rfl


/-- C6 (amended): marshal followed by unmarshal reproduces the legacy
public key field by field whenever both coordinates are dyadic with at
most Prec fractional bits (as key generation yields whenever the
parsed x is at least one half, in particular for the default X);
coordinates with more fractional bits lose their low bits in the
fixed-point truncation (see the counterexample with x = 0.2). -/
theorem c6_marshal_roundtrip_amended (pk : Legacy.PublicKey)
    (h0 : pk.Prec ≠ 0) (h16 : pk.Prec ≤ 65535)
    (hx1 : pk.X.num < 2 ^ pk.X.exp) (hx2 : pk.X.exp ≤ pk.Prec)
    (hh1 : pk.H.num < 2 ^ pk.H.exp) (hh2 : pk.H.exp ≤ pk.Prec) :
    ∃ pk2 : Legacy.PublicKey,
      (Legacy.MarshalBinary pk).bind Legacy.UnmarshalBinary = .ok pk2 ∧
      dyEq pk2.X pk.X ∧ dyEq pk2.H pk.H ∧ pk2.Prec = pk.Prec := by
  refine ⟨⟨⟨pk.X.num * 2 ^ (pk.Prec - pk.X.exp), pk.Prec⟩,
    ⟨pk.H.num * 2 ^ (pk.Prec - pk.H.exp), pk.Prec⟩, pk.Prec⟩, ?_, ?_, ?_, rfl⟩
  · rw [marshal_layout_aux pk h0 h16 hx1 hx2 hh1 hh2]
    simp only [Ret.bind]
    exact unmarshal_marshal_aux pk.Prec ((pk.Prec + 7) / 8) _ _ (by omega)
      (scaled_lt_pow256 pk.X.num pk.X.exp pk.Prec hx1 hx2)
      (scaled_lt_pow256 pk.H.num pk.H.exp pk.Prec hh1 hh2) rfl
  · show pk.X.num * 2 ^ (pk.Prec - pk.X.exp) * 2 ^ pk.X.exp = pk.X.num * 2 ^ pk.Prec
    rw [Nat.mul_assoc, ← pow_add]
    congr 2
    omega
  · show pk.H.num * 2 ^ (pk.Prec - pk.H.exp) * 2 ^ pk.H.exp = pk.H.num * 2 ^ pk.Prec
    rw [Nat.mul_assoc, ← pow_add]
    congr 2
    omega

set_option maxRecDepth 4000 in
/-- C6 (counterexample): the legacy key material generated from the
valid input string 0.2 at precision 128 (a fresh KeyGen input, since
the code only checks 0 < x < 1) marshals and unmarshals to a key whose
X field differs from the original: the parsed mantissa of 0.2 is odd
with 130 fractional bits, and the 128-bit fixed-point blob drops the
low two bits. -/
theorem c6_marshal_roundtrip_cx :
    (Legacy.MarshalBinary legacySamplePK).bind Legacy.UnmarshalBinary =
      .ok ⟨⟨68056473384187692692674921486353642291, 128⟩,
           ⟨204169420152563078078024764458631430144, 128⟩, 128⟩ ∧
    ¬ dyEq (⟨68056473384187692692674921486353642291, 128⟩ : Dy) legacySamplePK.X := by
  decide

set_option maxRecDepth 4000 in
/-- C6 (witness): the round trip at the legacy key material generated
from the default X string at precision 256. -/
theorem c6_marshal_roundtrip_witness :
    ∃ pk2 : Legacy.PublicKey,
      (Legacy.MarshalBinary legacyWitnessPK).bind Legacy.UnmarshalBinary = .ok pk2 ∧
      dyEq pk2.X legacyWitnessPK.X ∧ dyEq pk2.H legacyWitnessPK.H ∧
      pk2.Prec = legacyWitnessPK.Prec :=
  c6_marshal_roundtrip_amended legacyWitnessPK (by decide) (by decide)
    (by decide) (by decide) (by decide) (by decide)

/-- C7 (amended): the blob layout is the precision as a big-endian
uint16 at offset 0 followed by the two fixed-point coordinates in
k = ceil(Prec/8) bytes each (there is no digit-width field and no
length prefixes); unmarshalling of an input of length at least two
fails exactly when the length differs from 2 + 2k with k derived from
the leading precision field.  A two-byte blob with precision zero is
accepted (see the counterexample), contrary to the claimed
rejection. -/
theorem c7_blob_layout_amended :
    (∀ pk : Legacy.PublicKey, pk.Prec ≠ 0 → pk.Prec ≤ 65535 →
      pk.X.num < 2 ^ pk.X.exp → pk.X.exp ≤ pk.Prec →
      pk.H.num < 2 ^ pk.H.exp → pk.H.exp ≤ pk.Prec →
      Legacy.MarshalBinary pk = .ok (Legacy.u16be pk.Prec ++
        Legacy.padBytes ((pk.Prec + 7) / 8) (pk.X.num * 2 ^ (pk.Prec - pk.X.exp)) ++
        Legacy.padBytes ((pk.Prec + 7) / 8) (pk.H.num * 2 ^ (pk.Prec - pk.H.exp)))) ∧
    (∀ data : List ℕ, 2 ≤ data.length →
      ((Legacy.UnmarshalBinary data).isErr = true ↔
        data.length ≠ 2 + 2 * ((Legacy.bytesVal (data.take 2) + 7) / 8))) := by
  refine ⟨marshal_layout_aux, ?_⟩
  intro data h2
  unfold Legacy.UnmarshalBinary
  rw [if_neg (by omega)]
  by_cases hlen : data.length = 2 + 2 * ((Legacy.bytesVal (data.take 2) + 7) / 8)
  · simp [hlen, Ret.isErr]
  · simp [hlen, Ret.isErr]

set_option maxRecDepth 2000 in
/-- C7 (counterexample): the two-byte blob 0, 0 has a zero precision
field and a length different from 12 plus any coordinate lengths, yet
UnmarshalBinary accepts it and returns the zero key. -/
theorem c7_blob_layout_cx :
    Legacy.UnmarshalBinary [0, 0] = .ok ⟨⟨0, 0⟩, ⟨0, 0⟩, 0⟩ ∧
    (Legacy.UnmarshalBinary [0, 0]).isErr = false := by
  decide

set_option maxRecDepth 4000 in
/-- C7 (witness): the layout equation at the precision-256 legacy key
material and the length characterization at a short blob. -/
theorem c7_blob_layout_witness :
    Legacy.MarshalBinary legacyWitnessPK = .ok (Legacy.u16be legacyWitnessPK.Prec ++
      Legacy.padBytes ((legacyWitnessPK.Prec + 7) / 8)
        (legacyWitnessPK.X.num * 2 ^ (legacyWitnessPK.Prec - legacyWitnessPK.X.exp)) ++
      Legacy.padBytes ((legacyWitnessPK.Prec + 7) / 8)
        (legacyWitnessPK.H.num * 2 ^ (legacyWitnessPK.Prec - legacyWitnessPK.H.exp))) ∧
    ((Legacy.UnmarshalBinary [1, 0]).isErr = true ↔
      ([1, 0] : List ℕ).length ≠ 2 + 2 * ((Legacy.bytesVal (([1, 0] : List ℕ).take 2) + 7) / 8)) :=
  ⟨c7_blob_layout_amended.1 legacyWitnessPK (by decide) (by decide) (by decide)
    (by decide) (by decide) (by decide),
   c7_blob_layout_amended.2 [1, 0] (by decide)⟩

end M1FP
